import Mathlib

/-!
Verification of the token-aggregation core of the `e_back` repository.

The embedding follows the TypeScript source:
* `TokenData` mirrors the wire record (all JS `number` fields are modelled
  as rationals, `token_address` and other strings as `String`).
* A JavaScript `Map` is modelled as an insertion-ordered association list:
  `set` replaces the value in place when the key exists and appends
  otherwise; `values()` returns the second components in list order.
* `AggregatorService.mergeTokenData` is embedded as `mergeTokenData`.
-/

set_option autoImplicit false

/-- The unified token record (`TokenData` in `src/types`); JS `number`
fields are modelled as rationals. -/
structure TokenData where
  token_address : String
  token_name : String
  token_ticker : String
  price_sol : ℚ
  market_cap_sol : ℚ
  volume_sol : ℚ
  liquidity_sol : ℚ
  transaction_count : ℚ
  price_1hr_change : ℚ
  protocol : String
deriving DecidableEq

/-- `s.toLowerCase()`, modelled per character (the addresses handled by the
source are ASCII, where JS `toLowerCase` lowercases each character). -/
def lowerStr (s : String) : String := ⟨s.data.map Char.toLower⟩

/-- `token.token_address.toLowerCase()` — the normalized identity key. -/
def normAddr (t : TokenData) : String := lowerStr t.token_address

/-- A JavaScript `Map<string, TokenData>`: an insertion-ordered
association list. -/
abbrev TokenMap := List (String × TokenData)

/-- `Map.prototype.get`. -/
def mapGet : TokenMap → String → Option TokenData
  | [], _ => none
  | (k, v) :: rest, a => if k = a then some v else mapGet rest a

/-- `Map.prototype.has`. -/
def mapHas (m : TokenMap) (k : String) : Bool := (mapGet m k).isSome

/-- In-place value update for an existing key (keeps every key at its
original insertion position). -/
def mapReplace (m : TokenMap) (k : String) (v : TokenData) : TokenMap :=
  m.map (fun p => if p.1 = k then (k, v) else p)

/-- `Map.prototype.set`: replace in place when the key is present
(keeping the key's original insertion position), append otherwise. -/
def mapSet (m : TokenMap) (k : String) (v : TokenData) : TokenMap :=
  if mapHas m k then mapReplace m k v else m ++ [(k, v)]

/-- `Map.prototype.values()` in insertion order. -/
def mapValues (m : TokenMap) : List TokenData := m.map Prod.snd

/-- The keys of the map in insertion order. -/
def mapKeys (m : TokenMap) : List String := m.map Prod.fst

/-- Step 2 of `mergeTokenData`: for each DexScreener token, if
`token.token_address` is truthy (non-empty), `tokenMap.set(addr, token)`. -/
def mergeStep2 (m : TokenMap) (t : TokenData) : TokenMap :=
  if t.token_address ≠ "" then mapSet m (normAddr t) t else m

/-- Step 3 of `mergeTokenData`: for each Jupiter token with a truthy
address, insert it only when `tokenMap.has(addr)` is false. -/
def mergeStep3 (m : TokenMap) (t : TokenData) : TokenMap :=
  if t.token_address ≠ "" then
    if mapHas m (normAddr t) then m else mapSet m (normAddr t) t
  else m

/-- `AggregatorService.mergeTokenData(dexData, jupData)`. -/
def mergeTokenData (dexData jupData : List TokenData) : List TokenData :=
  mapValues (jupData.foldl mergeStep3 (dexData.foldl mergeStep2 []))

/-- Bool predicate: the record has a truthy address normalizing to `a`. -/
def matchAddr (a : String) (t : TokenData) : Bool :=
  t.token_address != "" && normAddr t == a

/-- Left-biased choice on options (`x` wins when present). -/
def orO (x y : Option TokenData) : Option TokenData :=
  match x with
  | some v => some v
  | none => y

/-- The last record in the list whose truthy address normalizes to `a`
(the value a last-wins pass stores under key `a`). -/
def lastWins (a : String) : List TokenData → Option TokenData
  | [] => none
  | t :: rest => orO (lastWins a rest) (if matchAddr a t then some t else none)

/-- The normalized addresses of the records with a truthy address. -/
def addrsOf (l : List TokenData) : List String :=
  (l.filter (fun t => t.token_address != "")).map normAddr

/-- Keep only the first occurrence of each element, in order. -/
def firstOccur : List String → List String
  | [] => []
  | a :: rest => a :: (firstOccur rest).filter (fun b => b != a)

/-- The secondary records that step 3 actually inserts into a map that
already holds `m`, in iteration order. -/
def secondaryNew (m : TokenMap) : List TokenData → List TokenData
  | [] => []
  | t :: rest =>
    if t.token_address ≠ "" then
      if mapHas m (normAddr t) then secondaryNew m rest
      else t :: secondaryNew (mapSet m (normAddr t) t) rest
    else secondaryNew m rest

/-! ## JSON serialization (`JSON.stringify` / `JSON.parse`)

The cache stores `JSON.stringify(mergedTokens)` and a hit returns
`JSON.parse(cachedData)`.  The serialized string is modelled by the JSON
value it denotes; `stringify` becomes `encodeTokens` and `parse` becomes
`decodeTokens`. -/

/-- A JSON value. -/
inductive JsonVal where
  | null
  | bool (b : Bool)
  | num (q : ℚ)
  | str (s : String)
  | arr (elems : List JsonVal)
  | obj (fields : List (String × JsonVal))

/-- Object field access (`.null` when absent or not an object). -/
def jGet : JsonVal → String → JsonVal
  | .obj fields, k =>
    match fields.find? (fun p => p.1 == k) with
    | some p => p.2
    | none => .null
  | _, _ => .null

/-- Read a JSON string, defaulting to `""`. -/
def jStr : JsonVal → String
  | .str s => s
  | _ => ""

/-- Read a JSON number, defaulting to `0`. -/
def jNum : JsonVal → ℚ
  | .num q => q
  | _ => 0

/-- `JSON.stringify` of one token record. -/
def encodeToken (t : TokenData) : JsonVal :=
  .obj [("token_address", .str t.token_address),
        ("token_name", .str t.token_name),
        ("token_ticker", .str t.token_ticker),
        ("price_sol", .num t.price_sol),
        ("market_cap_sol", .num t.market_cap_sol),
        ("volume_sol", .num t.volume_sol),
        ("liquidity_sol", .num t.liquidity_sol),
        ("transaction_count", .num t.transaction_count),
        ("price_1hr_change", .num t.price_1hr_change),
        ("protocol", .str t.protocol)]

/-- `JSON.stringify` of a token array. -/
def encodeTokens (l : List TokenData) : JsonVal := .arr (l.map encodeToken)

/-- `JSON.parse` of one serialized token record. -/
def decodeToken (j : JsonVal) : TokenData :=
  { token_address := jStr (jGet j "token_address")
    token_name := jStr (jGet j "token_name")
    token_ticker := jStr (jGet j "token_ticker")
    price_sol := jNum (jGet j "price_sol")
    market_cap_sol := jNum (jGet j "market_cap_sol")
    volume_sol := jNum (jGet j "volume_sol")
    liquidity_sol := jNum (jGet j "liquidity_sol")
    transaction_count := jNum (jGet j "transaction_count")
    price_1hr_change := jNum (jGet j "price_1hr_change")
    protocol := jStr (jGet j "protocol") }

/-- `JSON.parse` of a serialized token array. -/
def decodeTokens : JsonVal → List TokenData
  | .arr elems => elems.map decodeToken
  | _ => []

/-! ## Cache layer (`CacheService` over Redis)

The store maps a key to a value and an absolute expiry instant
(`SET key value EX ttl`); expiry is enforced by the store on read. -/

/-- Redis contents: key, value, absolute expiry time (seconds). -/
abbrev CacheState := List (String × JsonVal × ℕ)

/-- `config.cacheTTL` (`src/config.ts`): 30 seconds. -/
def cacheTTL : ℕ := 30

/-- A successful `CacheService.get`: the stored blob if present and
unexpired, `null` (here `none`) otherwise. -/
def cacheGetOk : CacheState → ℕ → String → Option JsonVal
  | [], _, _ => none
  | (k, v, e) :: rest, now, key =>
    if k = key then (if now < e then some v else none)
    else cacheGetOk rest now key

/-- `CacheService.set(key, value)` at time `now`: store with absolute
expiry `now + ttl` (Redis `EX`); the newest write shadows older ones. -/
def cacheSet (st : CacheState) (now ttl : ℕ) (key : String) (value : JsonVal) :
    CacheState :=
  (key, value, now + ttl) :: st

/-! ## Orchestrator (`AggregatorService.getAggregatedData`) -/

/-- The adapter results available for a query (both adapters fail soft,
so each is a plain token list). -/
structure Env where
  dexFetch : String → List TokenData
  jupFetch : String → List TokenData

/-- What one `getAggregatedData` call produces: its return value, the
cache state it leaves behind, and how many times each adapter ran. -/
structure CallResult where
  result : List TokenData
  state : CacheState
  dexCalls : ℕ
  jupCalls : ℕ

/-- The cache key built at the top of `getAggregatedData`. -/
def cacheKey (query : String) : String := "tokens_v5:" ++ query

/-- `AggregatorService.getAggregatedData(query)` at time `now` over cache
state `st`.  `cacheOk = false` models the awaited `cacheService.get`
rejecting (store unreachable): the function body has no try/catch, so the
rejection aborts the call, modelled as `Except.error`. -/
def getAggregatedData (env : Env) (cacheOk : Bool) (st : CacheState)
    (now : ℕ) (query : String) : Except Unit CallResult :=
  if cacheOk then
    match cacheGetOk st now (cacheKey query) with
    | some cachedData => .ok ⟨decodeTokens cachedData, st, 0, 0⟩
    | none =>
      let dexData := env.dexFetch query
      let jupData := env.jupFetch query
      let mergedTokens := mergeTokenData dexData jupData
      .ok ⟨mergedTokens,
           cacheSet st now cacheTTL (cacheKey query) (encodeTokens mergedTokens),
           1, 1⟩
  else .error ()

/-! ## Source adapters (`FetcherService`)

An adapter call's outside world is the axios outcome: `.error` models a
transport error or non-success status (axios rejects on both), `.ok`
carries `response.data`.  Optional chaining (`?.`) and `|| default`
become `Option` access with `getD`.  `priceNative` is a decimal string
upstream; it is modelled by the rational `parseFloat` yields for it, with
the `|| '0'` fallback becoming `getD 0`. -/

structure DexBaseToken where
  address : Option String
  name : Option String
  symbol : Option String

structure DexVolume where
  h24 : Option ℚ

structure DexLiquidity where
  usd : Option ℚ

structure DexTxnsH24 where
  buys : Option ℚ
  sells : Option ℚ

structure DexTxns where
  h24 : Option DexTxnsH24

structure DexPriceChange where
  h1 : Option ℚ

structure DexPair where
  baseToken : Option DexBaseToken
  priceNative : Option ℚ
  fdv : Option ℚ
  volume : Option DexVolume
  liquidity : Option DexLiquidity
  txns : Option DexTxns
  priceChange : Option DexPriceChange
  dexId : Option String

/-- `response.data` for DexScreener: an object with an optional
`pairs` array. -/
structure DexData where
  pairs : Option (List DexPair)

/-- The per-pair field mapping inside `fetchDexScreenerData`. -/
def mapDexPair (pair : DexPair) : TokenData :=
  { token_address := (pair.baseToken.bind (·.address)).getD ""
    token_name := (pair.baseToken.bind (·.name)).getD ""
    token_ticker := (pair.baseToken.bind (·.symbol)).getD ""
    price_sol := pair.priceNative.getD 0
    market_cap_sol := pair.fdv.getD 0
    volume_sol := (pair.volume.bind (·.h24)).getD 0
    liquidity_sol := (pair.liquidity.bind (·.usd)).getD 0
    transaction_count :=
      ((pair.txns.bind (·.h24)).bind (·.buys)).getD 0 +
      ((pair.txns.bind (·.h24)).bind (·.sells)).getD 0
    price_1hr_change := (pair.priceChange.bind (·.h1)).getD 0
    protocol := pair.dexId.getD "" }

/-- `FetcherService.fetchDexScreenerData`: the catch block and the
`response.data && response.data.pairs` guard both yield `[]`. -/
def fetchDexScreenerData : Except Unit (Option DexData) → List TokenData
  | .error _ => []
  | .ok none => []
  | .ok (some d) =>
    match d.pairs with
    | some pairs => pairs.map mapDexPair
    | none => []

/-- One element of the Jupiter response array. -/
structure JupToken where
  address : Option String
  name : Option String
  symbol : Option String

/-- The per-token field mapping inside `fetchJupiterData`. -/
def mapJupToken (token : JupToken) : TokenData :=
  { token_address := token.address.getD ""
    token_name := token.name.getD ""
    token_ticker := token.symbol.getD ""
    price_sol := 0
    market_cap_sol := 0
    volume_sol := 0
    liquidity_sol := 0
    transaction_count := 0
    price_1hr_change := 0
    protocol := "Jupiter" }

/-- `FetcherService.fetchJupiterData`: the catch block and the
`Array.isArray(response.data)` guard (modelled by `none`) yield `[]`. -/
def fetchJupiterData : Except Unit (Option (List JupToken)) → List TokenData
  | .error _ => []
  | .ok none => []
  | .ok (some tokens) => tokens.map mapJupToken

/-- Invariant of the merge map: keys are distinct, and every entry is a
record with a truthy address stored under its own normalized address. -/
def goodMap (m : TokenMap) : Prop :=
  (mapKeys m).Nodup ∧ ∀ p ∈ m, p.1 = normAddr p.2 ∧ p.2.token_address ≠ ""

/-! ## Concrete records used in witnesses and counterexamples -/

/-- A DexScreener-style record with address `0xAbc`. -/
def tokenP : TokenData :=
  ⟨"0xAbc", "Token A", "TKA", 2, 1000000, 50000, 100000, 100, 5, "dex1"⟩

/-- A Jupiter-style record with the same normalized address as `tokenP`. -/
def tokenS : TokenData :=
  ⟨"0xabc", "Token A", "TKA", 0, 0, 0, 0, 0, 0, "Jupiter"⟩

/-- A Jupiter-style record with a fresh address. -/
def tokenT : TokenData :=
  ⟨"0x789", "Token C", "TKC", 0, 0, 0, 0, 0, 0, "Jupiter"⟩

/-- First of two secondary records sharing one normalized address. -/
def secFirst : TokenData :=
  ⟨"0xdup", "Dup One", "D1", 0, 0, 0, 0, 0, 0, "Jupiter"⟩

/-- Second of two secondary records sharing one normalized address. -/
def secSecond : TokenData :=
  ⟨"0xDup", "Dup Two", "D2", 0, 0, 0, 0, 0, 0, "Jupiter"⟩

/-- A fixed environment whose adapters return `[tokenP]` and `[tokenT]`. -/
def envPT : Env := ⟨fun _ => [tokenP], fun _ => [tokenT]⟩

/-! ## Basic lemmas about the `Map` model -/

@[simp] theorem mapGet_nil (a : String) : mapGet [] a = none := rfl

@[simp] theorem mapGet_cons (k : String) (v : TokenData) (m : TokenMap)
    (a : String) :
    mapGet ((k, v) :: m) a = if k = a then some v else mapGet m a := rfl

@[simp] theorem mapKeys_nil : mapKeys [] = [] := rfl

@[simp] theorem mapKeys_cons (p : String × TokenData) (m : TokenMap) :
    mapKeys (p :: m) = p.1 :: mapKeys m := rfl

@[simp] theorem mapKeys_append (m l : TokenMap) :
    mapKeys (m ++ l) = mapKeys m ++ mapKeys l := by
  simp [mapKeys]

@[simp] theorem mapValues_nil : mapValues [] = [] := rfl

@[simp] theorem mapValues_cons (p : String × TokenData) (m : TokenMap) :
    mapValues (p :: m) = p.2 :: mapValues m := rfl

@[simp] theorem mapValues_append (m l : TokenMap) :
    mapValues (m ++ l) = mapValues m ++ mapValues l := by
  simp [mapValues]

@[simp] theorem mapReplace_nil (k : String) (v : TokenData) :
    mapReplace [] k v = [] := rfl

@[simp] theorem mapReplace_cons (p : String × TokenData) (m : TokenMap)
    (k : String) (v : TokenData) :
    mapReplace (p :: m) k v =
      (if p.1 = k then (k, v) else p) :: mapReplace m k v := rfl

theorem mapGet_eq_none_iff (m : TokenMap) (a : String) :
    mapGet m a = none ↔ a ∉ mapKeys m := by
  induction m with
  | nil => simp
  | cons p rest ih =>
    obtain ⟨k, v⟩ := p
    by_cases h : k = a
    · subst h; simp
    · simp [h, ih, Ne.symm h]

theorem mapHas_iff (m : TokenMap) (a : String) :
    mapHas m a = true ↔ a ∈ mapKeys m := by
  rw [mapHas, Option.isSome_iff_ne_none, ne_eq, mapGet_eq_none_iff, not_not]

theorem mapHas_eq_false (m : TokenMap) (a : String) :
    mapHas m a = false ↔ a ∉ mapKeys m := by
  rw [← Bool.not_eq_true, mapHas_iff]

theorem mapGet_append_left {m : TokenMap} {a : String} {v : TokenData}
    (l : TokenMap) (h : mapGet m a = some v) :
    mapGet (m ++ l) a = some v := by
  induction m with
  | nil => simp at h
  | cons p rest ih =>
    obtain ⟨k, w⟩ := p
    by_cases hk : k = a
    · subst hk; simpa using h
    · simp [hk] at h ⊢; exact ih h

theorem mapGet_append_right {m : TokenMap} {a : String}
    (l : TokenMap) (h : mapGet m a = none) :
    mapGet (m ++ l) a = mapGet l a := by
  induction m with
  | nil => simp
  | cons p rest ih =>
    obtain ⟨k, w⟩ := p
    by_cases hk : k = a
    · subst hk; simp at h
    · simp [hk] at h ⊢; exact ih h

theorem mapGet_mapReplace_ne {a k : String} (m : TokenMap) (v : TokenData)
    (h : a ≠ k) : mapGet (mapReplace m k v) a = mapGet m a := by
  induction m with
  | nil => rfl
  | cons p rest ih =>
    obtain ⟨k₁, v₁⟩ := p
    by_cases hk : k₁ = k
    · subst hk; simp [Ne.symm h]; exact ih
    · by_cases ha : k₁ = a
      · subst ha; simp [hk]
      · simp [hk, ha]; exact ih

theorem mapGet_mapReplace_self {a : String} (m : TokenMap) (v : TokenData)
    (h : a ∈ mapKeys m) : mapGet (mapReplace m a v) a = some v := by
  induction m with
  | nil => simp at h
  | cons p rest ih =>
    obtain ⟨k₁, v₁⟩ := p
    by_cases hk : k₁ = a
    · subst hk; simp
    · simp [hk, Ne.symm hk] at h ⊢
      exact ih h

theorem mapKeys_mapReplace (m : TokenMap) (k : String) (v : TokenData) :
    mapKeys (mapReplace m k v) = mapKeys m := by
  induction m with
  | nil => rfl
  | cons p rest ih =>
    obtain ⟨k₁, v₁⟩ := p
    by_cases hk : k₁ = k
    · subst hk; simpa using ih
    · simp [hk]; exact ih

theorem mem_mapReplace {p : String × TokenData} {m : TokenMap}
    {k : String} {v : TokenData} (h : p ∈ mapReplace m k v) :
    p = (k, v) ∨ p ∈ m := by
  rw [mapReplace, List.mem_map] at h
  obtain ⟨q, hq, hfq⟩ := h
  by_cases hk : q.1 = k
  · left; simp [hk] at hfq; exact hfq.symm
  · right; simp [hk] at hfq; subst hfq; exact hq

theorem mapKeys_mapSet (m : TokenMap) (k : String) (v : TokenData) :
    mapKeys (mapSet m k v) =
      if mapHas m k then mapKeys m else mapKeys m ++ [k] := by
  rw [mapSet]
  split
  · exact mapKeys_mapReplace m k v
  · simp [mapKeys]

theorem mapGet_mapSet_self (m : TokenMap) (k : String) (v : TokenData) :
    mapGet (mapSet m k v) k = some v := by
  rw [mapSet]
  split
  · rename_i h
    exact mapGet_mapReplace_self m v ((mapHas_iff m k).mp h)
  · rename_i h
    have hnone : mapGet m k = none := by
      rw [mapGet_eq_none_iff]
      exact (mapHas_eq_false m k).mp (Bool.of_not_eq_true h)
    rw [mapGet_append_right _ hnone]; simp [mapGet]

theorem mapGet_mapSet_ne {a k : String} (m : TokenMap) (v : TokenData)
    (h : a ≠ k) : mapGet (mapSet m k v) a = mapGet m a := by
  rw [mapSet]
  split
  · exact mapGet_mapReplace_ne m v h
  · cases hm : mapGet m a with
    | none => rw [mapGet_append_right _ hm]; simp [mapGet, Ne.symm h]
    | some w => rw [mapGet_append_left _ hm]

theorem mem_mapSet {p : String × TokenData} {m : TokenMap}
    {k : String} {v : TokenData} (h : p ∈ mapSet m k v) :
    p = (k, v) ∨ p ∈ m := by
  rw [mapSet] at h
  split at h
  · exact mem_mapReplace h
  · rcases List.mem_append.mp h with hm | hs
    · right; exact hm
    · left; simpa using hs

theorem mapGet_of_mem {m : TokenMap} {a : String} {r : TokenData}
    (hnd : (mapKeys m).Nodup) (h : (a, r) ∈ m) : mapGet m a = some r := by
  induction m with
  | nil => simp at h
  | cons p rest ih =>
    obtain ⟨k, v⟩ := p
    simp only [mapKeys_cons, List.nodup_cons] at hnd
    rcases List.mem_cons.mp h with heq | hmem
    · obtain ⟨h1, h2⟩ := Prod.mk.injEq .. ▸ heq
      simp [h1.symm, h2]
    · by_cases hk : k = a
      · exfalso
        apply hnd.1
        subst hk
        exact List.mem_map_of_mem Prod.fst hmem
      · simp [hk]
        exact ih hnd.2 hmem

theorem mem_values_of_mapGet {m : TokenMap} {a : String} {r : TokenData}
    (h : mapGet m a = some r) : r ∈ mapValues m := by
  induction m with
  | nil => simp at h
  | cons p rest ih =>
    obtain ⟨k, v⟩ := p
    by_cases hk : k = a
    · subst hk; simp at h; simp [h]
    · simp [hk] at h
      simp [ih h]

theorem exists_key_of_mem_values {m : TokenMap} {r : TokenData}
    (h : r ∈ mapValues m) : ∃ a, (a, r) ∈ m := by
  rw [mapValues, List.mem_map] at h
  obtain ⟨⟨a, v⟩, hm, hv⟩ := h
  exact ⟨a, hv ▸ hm⟩

/-! ## The map invariant along the merge -/

theorem goodMap_nil : goodMap [] := ⟨List.nodup_nil, by simp⟩

theorem goodMap_of_cons {p : String × TokenData} {m : TokenMap}
    (h : goodMap (p :: m)) : goodMap m := by
  obtain ⟨hnd, hmem⟩ := h
  simp only [mapKeys_cons, List.nodup_cons] at hnd
  exact ⟨hnd.2, fun q hq => hmem q (List.mem_cons_of_mem p hq)⟩

theorem goodMap_mapSet {m : TokenMap} {t : TokenData} (hg : goodMap m)
    (ht : t.token_address ≠ "") : goodMap (mapSet m (normAddr t) t) := by
  obtain ⟨hnd, hmem⟩ := hg
  constructor
  · rw [mapKeys_mapSet]
    split
    · exact hnd
    · rename_i h
      have hnotin : normAddr t ∉ mapKeys m :=
        (mapHas_eq_false m (normAddr t)).mp (Bool.of_not_eq_true h)
      simp [List.nodup_append, hnd, hnotin]
  · intro p hp
    rcases mem_mapSet hp with heq | hm
    · subst heq; exact ⟨rfl, ht⟩
    · exact hmem p hm

theorem goodMap_mergeStep2 {m : TokenMap} (t : TokenData) (hg : goodMap m) :
    goodMap (mergeStep2 m t) := by
  rw [mergeStep2]
  split
  · exact goodMap_mapSet hg (by assumption)
  · exact hg

theorem goodMap_mergeStep3 {m : TokenMap} (t : TokenData) (hg : goodMap m) :
    goodMap (mergeStep3 m t) := by
  rw [mergeStep3]
  split
  · split
    · exact hg
    · exact goodMap_mapSet hg (by assumption)
  · exact hg

theorem goodMap_foldl {step : TokenMap → TokenData → TokenMap}
    (hstep : ∀ m t, goodMap m → goodMap (step m t)) :
    ∀ (l : List TokenData) (m : TokenMap), goodMap m → goodMap (l.foldl step m) := by
  intro l
  induction l with
  | nil => exact fun m h => h
  | cons t rest ih => exact fun m h => ih (step m t) (hstep m t h)

theorem mapValues_map_normAddr {m : TokenMap} (hg : goodMap m) :
    (mapValues m).map normAddr = mapKeys m := by
  induction m with
  | nil => rfl
  | cons p rest ih =>
    have hp := hg.2 p (List.mem_cons_self p rest)
    simp [← hp.1, ih (goodMap_of_cons hg)]

/-! ## Option helpers -/

@[simp] theorem orO_none_left (y : Option TokenData) : orO none y = y := rfl

@[simp] theorem orO_some (v : TokenData) (y : Option TokenData) :
    orO (some v) y = some v := rfl

@[simp] theorem orO_none_right (x : Option TokenData) : orO x none = x := by
  cases x <;> rfl

theorem orO_assoc (x y z : Option TokenData) :
    orO (orO x y) z = orO x (orO y z) := by
  cases x <;> rfl

theorem orO_eq_none_iff (x y : Option TokenData) :
    orO x y = none ↔ x = none ∧ y = none := by
  cases x <;> simp [orO]

/-! ## Characterizing the two merge passes by lookups -/

theorem matchAddr_iff (a : String) (t : TokenData) :
    matchAddr a t = true ↔ t.token_address ≠ "" ∧ normAddr t = a := by
  simp [matchAddr]

theorem mapGet_mergeStep2 (m : TokenMap) (t : TokenData) (a : String) :
    mapGet (mergeStep2 m t) a =
      orO (if matchAddr a t then some t else none) (mapGet m a) := by
  rw [mergeStep2]
  by_cases he : t.token_address ≠ ""
  · rw [if_pos he]
    by_cases ha : normAddr t = a
    · rw [if_pos ((matchAddr_iff a t).mpr ⟨he, ha⟩)]
      simp only [orO_some]
      rw [← ha]
      exact mapGet_mapSet_self m (normAddr t) t
    · rw [if_neg (fun hm => ha ((matchAddr_iff a t).mp hm).2)]
      simp [mapGet_mapSet_ne m t (fun h => ha h.symm)]
  · rw [if_neg he, if_neg (fun hm => he ((matchAddr_iff a t).mp hm).1)]
    simp

theorem mapGet_foldl_mergeStep2 (p : List TokenData) (m : TokenMap)
    (a : String) :
    mapGet (p.foldl mergeStep2 m) a = orO (lastWins a p) (mapGet m a) := by
  induction p generalizing m with
  | nil => rfl
  | cons t rest ih =>
    rw [List.foldl_cons, ih, lastWins, orO_assoc, mapGet_mergeStep2]

theorem mapGet_mergeStep3 (m : TokenMap) (t : TokenData) (a : String) :
    mapGet (mergeStep3 m t) a =
      orO (mapGet m a) (if matchAddr a t then some t else none) := by
  rw [mergeStep3]
  by_cases he : t.token_address ≠ ""
  · rw [if_pos he]
    by_cases ha : normAddr t = a
    · subst ha
      rw [if_pos ((matchAddr_iff (normAddr t) t).mpr ⟨he, rfl⟩)]
      by_cases hh : mapHas m (normAddr t) = true
      · rw [if_pos hh]
        obtain ⟨v, hv⟩ := Option.isSome_iff_exists.mp (by rw [← mapHas]; exact hh)
        simp [hv]
      · rw [if_neg hh]
        have hnone : mapGet m (normAddr t) = none := by
          rw [mapGet_eq_none_iff]
          exact (mapHas_eq_false m (normAddr t)).mp (Bool.of_not_eq_true hh)
        simp [hnone, mapGet_mapSet_self]
    · rw [if_neg (fun hm => ha ((matchAddr_iff a t).mp hm).2)]
      split
      · simp
      · simp [mapGet_mapSet_ne m t (fun h => ha h.symm)]
  · rw [if_neg he, if_neg (fun hm => he ((matchAddr_iff a t).mp hm).1)]
    simp

theorem mapGet_foldl_mergeStep3 (s : List TokenData) (m : TokenMap)
    (a : String) :
    mapGet (s.foldl mergeStep3 m) a = orO (mapGet m a) (s.find? (matchAddr a)) := by
  induction s generalizing m with
  | nil => simp
  | cons t rest ih =>
    rw [List.foldl_cons, ih, mapGet_mergeStep3]
    by_cases hm : matchAddr a t = true
    · rw [List.find?_cons_of_pos _ hm, if_pos hm]
      cases hg : mapGet m a <;> simp
    · rw [List.find?_cons_of_neg _ hm, if_neg hm]
      simp

/-! ## Last-wins characterization of the primary pass -/

theorem lastWins_eq_none_iff (a : String) (p : List TokenData) :
    lastWins a p = none ↔ ∀ t ∈ p, matchAddr a t = false := by
  induction p with
  | nil => simp [lastWins]
  | cons t rest ih =>
    rw [lastWins, orO_eq_none_iff]
    constructor
    · rintro ⟨h1, h2⟩ u hu
      rcases List.mem_cons.mp hu with rfl | hm
      · cases hmt : matchAddr a u with
        | false => rfl
        | true => rw [if_pos hmt] at h2; exact absurd h2 (by simp)
      · exact (ih.mp h1) u hm
    · intro h
      refine ⟨ih.mpr (fun u hu => h u (List.mem_cons_of_mem t hu)), ?_⟩
      rw [if_neg (by simp [h t (List.mem_cons_self t rest)])]

theorem lastWins_isSome {a : String} {p : List TokenData}
    (h : ∃ t ∈ p, matchAddr a t = true) : ∃ v, lastWins a p = some v := by
  cases hl : lastWins a p with
  | some v => exact ⟨v, rfl⟩
  | none =>
    exfalso
    obtain ⟨t, ht, hmt⟩ := h
    have := (lastWins_eq_none_iff a p).mp hl t ht
    simp [hmt] at this

theorem lastWins_eq_getLast_filter (a : String) (p : List TokenData) :
    lastWins a p = (p.filter (matchAddr a)).getLast? := by
  induction p with
  | nil => rfl
  | cons t rest ih =>
    by_cases hm : matchAddr a t = true
    · rw [lastWins, ih, List.filter_cons_of_pos hm]
      cases hf : rest.filter (matchAddr a) with
      | nil => simp [if_pos hm]
      | cons x xs =>
        rw [List.getLast?_cons_cons]
        have hs : ((x :: xs).getLast?).isSome := by
          rw [List.getLast?_isSome]; simp
        obtain ⟨w, hw⟩ := Option.isSome_iff_exists.mp hs
        simp [hw]
    · rw [lastWins, ih, List.filter_cons_of_neg hm, if_neg hm, orO_none_right]

/-! ## Claims about `mergeTokenData` -/

/-- C2: for all pairs of input sequences, the merged output contains at
most one record per normalized (lowercased) address. -/
theorem merge_dedup (dexData jupData : List TokenData) :
    ((mergeTokenData dexData jupData).map normAddr).Nodup := by
  have hg : goodMap (jupData.foldl mergeStep3 (dexData.foldl mergeStep2 [])) :=
    goodMap_foldl (fun _ t h => goodMap_mergeStep3 t h) jupData _
      (goodMap_foldl (fun _ t h => goodMap_mergeStep2 t h) dexData [] goodMap_nil)
  rw [mergeTokenData, mapValues_map_normAddr hg]
  exact hg.1

/-- C1: whenever a normalized address occurs (with a truthy address) in
both inputs, the unique merged record carrying that normalized address is
exactly the last primary record with it — never a secondary record. -/
theorem merge_primary_precedence (dexData jupData : List TokenData)
    (a : String) (r : TokenData)
    (hp : ∃ t ∈ dexData, t.token_address ≠ "" ∧ normAddr t = a)
    (hs : ∃ t ∈ jupData, t.token_address ≠ "" ∧ normAddr t = a)
    (hr : r ∈ mergeTokenData dexData jupData) (ha : normAddr r = a) :
    (dexData.filter (matchAddr a)).getLast? = some r := by
  have hg2 : goodMap (jupData.foldl mergeStep3 (dexData.foldl mergeStep2 [])) :=
    goodMap_foldl (fun _ t h => goodMap_mergeStep3 t h) jupData _
      (goodMap_foldl (fun _ t h => goodMap_mergeStep2 t h) dexData [] goodMap_nil)
  rw [mergeTokenData] at hr
  obtain ⟨k, hk⟩ := exists_key_of_mem_values hr
  have hka : k = a := (hg2.2 _ hk).1.trans ha
  have hget :
      mapGet (jupData.foldl mergeStep3 (dexData.foldl mergeStep2 [])) a = some r :=
    mapGet_of_mem hg2.1 (hka ▸ hk)
  obtain ⟨v, hv⟩ := lastWins_isSome (a := a) (p := dexData)
    (by obtain ⟨t, ht, h1, h2⟩ := hp
        exact ⟨t, ht, (matchAddr_iff a t).mpr ⟨h1, h2⟩⟩)
  have h1 : mapGet (dexData.foldl mergeStep2 []) a = some v := by
    rw [mapGet_foldl_mergeStep2, hv]; rfl
  have h2 :
      mapGet (jupData.foldl mergeStep3 (dexData.foldl mergeStep2 [])) a = some v := by
    rw [mapGet_foldl_mergeStep3, h1]; rfl
  rw [← lastWins_eq_getLast_filter, hv]
  exact congrArg some (Option.some.inj (h2.symm.trans hget))

/-- Witness for C1 at concrete inputs: `tokenP` and `tokenS` share the
normalized address `0xabc`, and the merged record is `tokenP`. -/
theorem merge_primary_precedence_witness :
    tokenP ∈ mergeTokenData [tokenP] [tokenS, tokenT] ∧
    ([tokenP].filter (matchAddr "0xabc")).getLast? = some tokenP :=
  ⟨by decide,
   merge_primary_precedence [tokenP] [tokenS, tokenT] "0xabc" tokenP
     (by decide) (by decide) (by decide) (by decide)⟩

/-! ## Counting the merged records -/

theorem mem_addrsOf (a : String) (l : List TokenData) :
    a ∈ addrsOf l ↔ ∃ t ∈ l, matchAddr a t = true := by
  simp only [addrsOf, List.mem_map, List.mem_filter, matchAddr, Bool.and_eq_true,
    bne_iff_ne, ne_eq, beq_iff_eq]
  constructor
  · rintro ⟨t, ⟨ht, he⟩, ha⟩
    exact ⟨t, ht, he, ha⟩
  · rintro ⟨t, ht, he, ha⟩
    exact ⟨t, ⟨ht, he⟩, ha⟩

theorem mapGet_merged_eq_none_iff (dexData jupData : List TokenData)
    (a : String) :
    mapGet (jupData.foldl mergeStep3 (dexData.foldl mergeStep2 [])) a = none ↔
      a ∉ addrsOf dexData ∧ a ∉ addrsOf jupData := by
  rw [mapGet_foldl_mergeStep3, mapGet_foldl_mergeStep2, orO_eq_none_iff,
    orO_eq_none_iff]
  simp only [mapGet_nil, and_true, lastWins_eq_none_iff, List.find?_eq_none,
    mem_addrsOf, not_exists, not_and]
  constructor
  · rintro ⟨h1, h2⟩
    exact ⟨fun t ht hm => by simp [h1 t ht] at hm,
           fun t ht hm => (h2 t ht) hm⟩
  · rintro ⟨h1, h2⟩
    exact ⟨fun t ht => by have := h1 t ht; revert this; cases matchAddr a t <;> simp,
           fun t ht => h2 t ht⟩

theorem mem_mapKeys_merged (dexData jupData : List TokenData) (a : String) :
    a ∈ mapKeys (jupData.foldl mergeStep3 (dexData.foldl mergeStep2 [])) ↔
      a ∈ addrsOf dexData ∨ a ∈ addrsOf jupData := by
  have h := mapGet_merged_eq_none_iff dexData jupData a
  rw [mapGet_eq_none_iff] at h
  constructor
  · intro hk
    by_contra hc
    rw [not_or] at hc
    exact (h.mpr ⟨hc.1, hc.2⟩) hk
  · intro hor
    by_contra hk
    rcases h.mp hk with ⟨h1, h2⟩
    rcases hor with ho | ho
    · exact h1 ho
    · exact h2 ho

/-- C3: the merged output size is the number of distinct normalized
addresses in the primary plus the number of distinct normalized addresses
in the secondary that do not occur in the primary; records with empty
address are excluded from both counts. -/
theorem merge_length (dexData jupData : List TokenData) :
    (mergeTokenData dexData jupData).length =
      (addrsOf dexData).dedup.length +
      ((addrsOf jupData).dedup.filter
        (fun a => !((addrsOf dexData).contains a))).length := by
  have hg2 : goodMap (jupData.foldl mergeStep3 (dexData.foldl mergeStep2 [])) :=
    goodMap_foldl (fun _ t h => goodMap_mergeStep3 t h) jupData _
      (goodMap_foldl (fun _ t h => goodMap_mergeStep2 t h) dexData [] goodMap_nil)
  have hndR : ((addrsOf dexData).dedup ++
      ((addrsOf jupData).dedup.filter
        (fun a => !((addrsOf dexData).contains a)))).Nodup := by
    rw [List.nodup_append]
    refine ⟨List.nodup_dedup _, List.Nodup.filter _ (List.nodup_dedup _), ?_⟩
    intro a ha hb
    rw [List.mem_filter] at hb
    rw [List.mem_dedup] at ha
    simp [ha] at hb
  have hperm :
      (mapKeys (jupData.foldl mergeStep3 (dexData.foldl mergeStep2 []))).Perm
        ((addrsOf dexData).dedup ++
          ((addrsOf jupData).dedup.filter
            (fun a => !((addrsOf dexData).contains a)))) := by
    rw [List.perm_ext_iff_of_nodup hg2.1 hndR]
    intro a
    rw [mem_mapKeys_merged]
    simp only [List.mem_append, List.mem_filter, List.mem_dedup]
    constructor
    · rintro (h | h)
      · exact Or.inl h
      · by_cases hd : a ∈ addrsOf dexData
        · exact Or.inl hd
        · exact Or.inr ⟨h, by simp [hd]⟩
    · rintro (h | ⟨h, _⟩)
      · exact Or.inl h
      · exact Or.inr h
  have hlen : (mergeTokenData dexData jupData).length =
      (mapKeys (jupData.foldl mergeStep3 (dexData.foldl mergeStep2 []))).length := by
    rw [mergeTokenData]; simp [mapValues, mapKeys]
  rw [hlen, hperm.length_eq, List.length_append]

/-! ## Within-secondary duplicates -/

/-- C4 counterexample: `secFirst` and `secSecond` share the normalized
address `0xdup`, absent from the (empty) primary; the merged output keeps
the earlier record `secFirst`, and the later record `secSecond` does not
appear — so within-secondary duplicates are first-wins, not last-wins. -/
theorem merge_secondary_last_wins_cex :
    normAddr secFirst = normAddr secSecond ∧
    secFirst.token_address ≠ "" ∧ secSecond.token_address ≠ "" ∧
    mergeTokenData [] [secFirst, secSecond] = [secFirst] ∧
    secSecond ∉ mergeTokenData [] [secFirst, secSecond] := by
  decide

/-- C4 (amended): within the secondary sequence, duplicate normalized
addresses are resolved first-wins: when a normalized address is absent
from the primary contribution, the earliest secondary record carrying it
(`find?`) is the one that appears in the merged output. -/
theorem merge_secondary_first_wins (dexData jupData : List TokenData)
    (a : String)
    (hp : ∀ t ∈ dexData, matchAddr a t = false)
    (hs : ∃ t ∈ jupData, matchAddr a t = true) :
    ∃ r, jupData.find? (matchAddr a) = some r ∧
      r ∈ mergeTokenData dexData jupData := by
  have h1 : mapGet (dexData.foldl mergeStep2 []) a = none := by
    rw [mapGet_foldl_mergeStep2, (lastWins_eq_none_iff a dexData).mpr hp]; rfl
  have h2 : mapGet (jupData.foldl mergeStep3 (dexData.foldl mergeStep2 [])) a =
      jupData.find? (matchAddr a) := by
    rw [mapGet_foldl_mergeStep3, h1]; rfl
  obtain ⟨r, hr⟩ : ∃ r, jupData.find? (matchAddr a) = some r := by
    cases hf : jupData.find? (matchAddr a) with
    | some r => exact ⟨r, rfl⟩
    | none =>
      obtain ⟨t, ht, hmt⟩ := hs
      exact absurd hmt (by simpa using (List.find?_eq_none.mp hf) t ht)
  exact ⟨r, hr, by rw [mergeTokenData]; exact mem_values_of_mapGet (h2.trans hr)⟩

/-- Witness for the amended C4: with both duplicates in the secondary and
an empty primary, the merged output keeps the first one, `secFirst`. -/
theorem merge_secondary_first_wins_witness :
    List.find? (matchAddr "0xdup") [secFirst, secSecond] = some secFirst ∧
    secFirst ∈ mergeTokenData [] [secFirst, secSecond] := by
  obtain ⟨r, hr, hm⟩ :=
    merge_secondary_first_wins [] [secFirst, secSecond] "0xdup"
      (by decide) (by decide)
  have hfind : List.find? (matchAddr "0xdup") [secFirst, secSecond] =
      some secFirst := by decide
  have hrf : r = secFirst := Option.some.inj (hr.symm.trans hfind)
  exact ⟨hfind, hrf ▸ hm⟩

/-! ## The merge with an empty secondary input -/

theorem foldl_mergeStep2_clean (p : List TokenData) (m : TokenMap)
    (hne : ∀ t ∈ p, t.token_address ≠ "")
    (hnd : (p.map normAddr).Nodup)
    (hdis : ∀ t ∈ p, normAddr t ∉ mapKeys m) :
    p.foldl mergeStep2 m = m ++ p.map (fun t => (normAddr t, t)) := by
  induction p generalizing m with
  | nil => simp
  | cons t rest ih =>
    rw [List.map_cons, List.nodup_cons] at hnd
    rw [List.foldl_cons]
    have hstep : mergeStep2 m t = m ++ [(normAddr t, t)] := by
      rw [mergeStep2, if_pos (hne t (List.mem_cons_self t rest)), mapSet,
        if_neg (by
          rw [mapHas_iff]
          exact hdis t (List.mem_cons_self t rest))]
    rw [hstep,
      ih (m ++ [(normAddr t, t)])
        (fun u hu => hne u (List.mem_cons_of_mem t hu))
        hnd.2
        (by
          intro u hu
          simp only [mapKeys_append, List.mem_append, mapKeys_cons, mapKeys_nil,
            List.mem_singleton]
          rintro (hin | hk)
          · exact hdis u (List.mem_cons_of_mem t hu) hin
          · exact hnd.1 (hk ▸ List.mem_map_of_mem normAddr hu))]
    simp

/-- C10: merging a clean primary (truthy, pairwise-distinct normalized
addresses) with an empty secondary returns exactly the primary sequence,
same records in the same order. -/
theorem merge_empty_secondary_identity (dexData : List TokenData)
    (hne : ∀ t ∈ dexData, t.token_address ≠ "")
    (hnd : (dexData.map normAddr).Nodup) :
    mergeTokenData dexData [] = dexData := by
  rw [mergeTokenData, List.foldl_nil,
    foldl_mergeStep2_clean dexData [] hne hnd (by simp)]
  rw [List.nil_append, mapValues, List.map_map]
  have hcomp : (Prod.snd ∘ fun t : TokenData => (normAddr t, t)) = id := rfl
  rw [hcomp, List.map_id]

/-- Witness for C10 at a concrete clean primary. -/
theorem merge_empty_secondary_identity_witness :
    mergeTokenData [tokenP, tokenT] [] = [tokenP, tokenT] :=
  merge_empty_secondary_identity [tokenP, tokenT] (by decide) (by decide)

/-! ## Order of the merged output -/

theorem foldl_mergeStep3_append (s : List TokenData) (m : TokenMap) :
    s.foldl mergeStep3 m =
      m ++ (secondaryNew m s).map (fun t => (normAddr t, t)) := by
  induction s generalizing m with
  | nil => simp [secondaryNew]
  | cons t rest ih =>
    rw [List.foldl_cons]
    simp only [secondaryNew]
    by_cases he : t.token_address ≠ ""
    · rw [if_pos he]
      by_cases hh : mapHas m (normAddr t) = true
      · rw [if_pos hh]
        have hstep : mergeStep3 m t = m := by rw [mergeStep3, if_pos he, if_pos hh]
        rw [hstep, ih]
      · rw [if_neg hh]
        have hset : mapSet m (normAddr t) t = m ++ [(normAddr t, t)] := by
          rw [mapSet, if_neg hh]
        have hstep : mergeStep3 m t = mapSet m (normAddr t) t := by
          rw [mergeStep3, if_pos he, if_neg hh]
        rw [hstep, ih, hset]
        simp
    · rw [if_neg he]
      have hstep : mergeStep3 m t = m := by rw [mergeStep3, if_neg he]
      rw [hstep, ih]

theorem secondaryNew_sublist (s : List TokenData) (m : TokenMap) :
    (secondaryNew m s).Sublist s := by
  induction s generalizing m with
  | nil => simp [secondaryNew]
  | cons t rest ih =>
    simp only [secondaryNew]
    split
    · split
      · exact List.Sublist.cons t (ih m)
      · exact List.Sublist.cons₂ t (ih _)
    · exact List.Sublist.cons t (ih m)

theorem mapHas_of_mapSet {m : TokenMap} {a k : String} {v : TokenData}
    (h : mapHas m a = true) : mapHas (mapSet m k v) a = true := by
  rw [mapHas_iff] at h ⊢
  rw [mapKeys_mapSet]
  split
  · exact h
  · simp [h]

theorem secondaryNew_fresh {s : List TokenData} {m : TokenMap} {r : TokenData}
    (hr : r ∈ secondaryNew m s) :
    r.token_address ≠ "" ∧ mapHas m (normAddr r) = false := by
  induction s generalizing m with
  | nil => simp [secondaryNew] at hr
  | cons t rest ih =>
    simp only [secondaryNew] at hr
    by_cases he : t.token_address ≠ ""
    · rw [if_pos he] at hr
      by_cases hh : mapHas m (normAddr t) = true
      · rw [if_pos hh] at hr
        exact ih hr
      · rw [if_neg hh] at hr
        rcases List.mem_cons.mp hr with rfl | hmem
        · exact ⟨he, Bool.of_not_eq_true hh⟩
        · obtain ⟨h1, h2⟩ := ih hmem
          refine ⟨h1, ?_⟩
          cases hcase : mapHas m (normAddr r) with
          | false => rfl
          | true => rw [mapHas_of_mapSet hcase] at h2; exact absurd h2 (by simp)
    · rw [if_neg he] at hr
      exact ih hr

theorem addrsOf_cons_pos {t : TokenData} (l : List TokenData)
    (he : t.token_address ≠ "") :
    addrsOf (t :: l) = normAddr t :: addrsOf l := by
  simp [addrsOf, List.filter_cons, he]

theorem addrsOf_cons_neg {t : TokenData} (l : List TokenData)
    (he : ¬t.token_address ≠ "") :
    addrsOf (t :: l) = addrsOf l := by
  simp [addrsOf, List.filter_cons, not_not.mp he]

theorem mapHas_congr_keys {m₁ m₂ : TokenMap}
    (h : mapKeys m₁ = mapKeys m₂) (a : String) :
    mapHas m₁ a = mapHas m₂ a := by
  cases h1 : mapHas m₁ a with
  | true =>
    rw [mapHas_iff] at h1
    exact ((mapHas_iff m₂ a).mpr (h ▸ h1)).symm
  | false =>
    rw [mapHas_eq_false] at h1
    exact ((mapHas_eq_false m₂ a).mpr (h ▸ h1)).symm

theorem mapHas_append_single (m : TokenMap) (k : String) (v : TokenData)
    (a : String) :
    mapHas (m ++ [(k, v)]) a = (mapHas m a || (a == k)) := by
  by_cases h1 : a ∈ mapKeys m
  · rw [(mapHas_iff _ _).mpr (by simp [h1]), (mapHas_iff m a).mpr h1]
    rfl
  · by_cases h2 : a = k
    · subst h2
      rw [(mapHas_iff _ _).mpr (by simp), (mapHas_eq_false m a).mpr h1]
      simp
    · rw [(mapHas_eq_false _ _).mpr (by simp [h1, h2]),
        (mapHas_eq_false m a).mpr h1]
      simp [h2]

theorem mapKeys_foldl_mergeStep2 (p : List TokenData) (m : TokenMap) :
    mapKeys (p.foldl mergeStep2 m) =
      mapKeys m ++ (firstOccur (addrsOf p)).filter (fun a => !(mapHas m a)) := by
  induction p generalizing m with
  | nil => simp [firstOccur, addrsOf]
  | cons t rest ih =>
    rw [List.foldl_cons]
    by_cases he : t.token_address ≠ ""
    · rw [addrsOf_cons_pos rest he]
      simp only [firstOccur]
      by_cases hh : mapHas m (normAddr t) = true
      · have hkeys : mapKeys (mergeStep2 m t) = mapKeys m := by
          rw [mergeStep2, if_pos he, mapKeys_mapSet, if_pos hh]
        have hhas : ∀ a, mapHas (mergeStep2 m t) a = mapHas m a :=
          mapHas_congr_keys hkeys
        rw [ih, hkeys, List.filter_cons]
        rw [if_neg (by simp [hh])]
        rw [List.filter_filter]
        congr 1
        apply List.filter_congr
        intro a _
        rw [hhas a]
        cases hha : mapHas m a with
        | true => rfl
        | false =>
          have : a ≠ normAddr t := by
            intro heq
            rw [heq, hh] at hha
            exact absurd hha (by simp)
          simp [this]
      · have hset : mapSet m (normAddr t) t = m ++ [(normAddr t, t)] := by
          rw [mapSet, if_neg hh]
        have hstep : mergeStep2 m t = m ++ [(normAddr t, t)] := by
          rw [mergeStep2, if_pos he, hset]
        rw [ih, hstep, mapKeys_append, List.filter_cons]
        rw [if_pos (by simp [hh])]
        rw [List.filter_filter]
        simp only [mapKeys_cons, mapKeys_nil]
        rw [List.append_assoc]
        congr 1
        rw [List.singleton_append]
        congr 1
        apply List.filter_congr
        intro a _
        rw [mapHas_append_single]
        cases hha : mapHas m a with
        | true => simp
        | false => simp [bne]
    · rw [addrsOf_cons_neg rest he]
      have hstep : mergeStep2 m t = m := by rw [mergeStep2, if_neg he]
      rw [hstep, ih]

theorem map_normAddr_merge_primary (dexData : List TokenData) :
    (mergeTokenData dexData []).map normAddr = firstOccur (addrsOf dexData) := by
  have hg : goodMap (dexData.foldl mergeStep2 []) :=
    goodMap_foldl (fun _ t h => goodMap_mergeStep2 t h) dexData [] goodMap_nil
  rw [mergeTokenData, List.foldl_nil, mapValues_map_normAddr hg,
    mapKeys_foldl_mergeStep2, mapKeys_nil, List.nil_append]
  have : ∀ a ∈ firstOccur (addrsOf dexData), (!(mapHas [] a)) = true := by
    intro a _
    rfl
  exact List.filter_eq_self.mpr this

/-- C7: the merged output is the primary contribution (in primary
first-occurrence order of normalized addresses) followed, without
interleaving, by the secondary-only records in secondary iteration
order (`secondaryNew` is a sublist of the secondary input consisting of
records whose normalized address is absent from the primary). -/
theorem merge_order (dexData jupData : List TokenData) :
    mergeTokenData dexData jupData =
      mergeTokenData dexData [] ++
        secondaryNew (dexData.foldl mergeStep2 []) jupData ∧
    ((mergeTokenData dexData []).map normAddr = firstOccur (addrsOf dexData)) ∧
    (secondaryNew (dexData.foldl mergeStep2 []) jupData).Sublist jupData ∧
    ∀ r ∈ secondaryNew (dexData.foldl mergeStep2 []) jupData,
      r.token_address ≠ "" ∧ normAddr r ∉ addrsOf dexData := by
  refine ⟨?_, map_normAddr_merge_primary dexData, secondaryNew_sublist _ _, ?_⟩
  · rw [mergeTokenData, mergeTokenData, List.foldl_nil, foldl_mergeStep3_append,
      mapValues_append]
    congr 1
    rw [mapValues, List.map_map]
    have hcomp : (Prod.snd ∘ fun t : TokenData => (normAddr t, t)) = id := rfl
    rw [hcomp, List.map_id]
  · intro r hr
    obtain ⟨he, hh⟩ := secondaryNew_fresh hr
    refine ⟨he, fun hmem => ?_⟩
    have hk := (mem_mapKeys_merged dexData [] (normAddr r))
    rw [List.foldl_nil] at hk
    have : mapHas (dexData.foldl mergeStep2 []) (normAddr r) = true :=
      (mapHas_iff _ _).mpr (hk.mpr (Or.inl hmem))
    rw [this] at hh
    exact absurd hh (by simp)

/-! ## Serialization round-trip -/

theorem decodeToken_encodeToken (t : TokenData) :
    decodeToken (encodeToken t) = t := by
  cases t
  rfl

theorem decodeTokens_encodeTokens (l : List TokenData) :
    decodeTokens (encodeTokens l) = l := by
  rw [encodeTokens, decodeTokens, List.map_map]
  have hcomp : (decodeToken ∘ encodeToken) = id :=
    funext fun t => decodeToken_encodeToken t
  rw [hcomp, List.map_id]

/-! ## Claims about the orchestrator and the cache -/

/-- C6: with the cache initially cold for the key, the first call fetches
from both adapters; a second call within the TTL window makes no adapter
calls, deserializes the cached blob, and returns a result equal to the
first call's. -/
theorem cache_roundtrip_idempotent (env : Env) (st : CacheState)
    (q : String) (t1 t2 : ℕ)
    (hcold : cacheGetOk st t1 (cacheKey q) = none)
    (h12 : t1 ≤ t2) (hwin : t2 < t1 + cacheTTL) :
    ∃ r1 r2 : CallResult,
      getAggregatedData env true st t1 q = .ok r1 ∧
      r1.dexCalls = 1 ∧ r1.jupCalls = 1 ∧
      getAggregatedData env true r1.state t2 q = .ok r2 ∧
      r2.dexCalls = 0 ∧ r2.jupCalls = 0 ∧
      r2.result = r1.result := by
  refine ⟨⟨mergeTokenData (env.dexFetch q) (env.jupFetch q),
           cacheSet st t1 cacheTTL (cacheKey q)
             (encodeTokens (mergeTokenData (env.dexFetch q) (env.jupFetch q))),
           1, 1⟩,
          ⟨decodeTokens (encodeTokens (mergeTokenData (env.dexFetch q) (env.jupFetch q))),
           cacheSet st t1 cacheTTL (cacheKey q)
             (encodeTokens (mergeTokenData (env.dexFetch q) (env.jupFetch q))),
           0, 0⟩, ?_, rfl, rfl, ?_, rfl, rfl, ?_⟩
  · rw [getAggregatedData, if_pos rfl, hcold]
  · rw [getAggregatedData, if_pos rfl]
    have hget2 :
        cacheGetOk
          (cacheSet st t1 cacheTTL (cacheKey q)
            (encodeTokens (mergeTokenData (env.dexFetch q) (env.jupFetch q))))
          t2 (cacheKey q) =
          some (encodeTokens (mergeTokenData (env.dexFetch q) (env.jupFetch q))) := by
      rw [cacheSet]
      simp only [cacheGetOk, if_pos rfl]
      rw [if_pos hwin]
      simp
    rw [hget2]
  · exact decodeTokens_encodeTokens _

/-- Witness for C6 at a concrete environment, empty cache, `q = "SOL"`,
times 0 and 10. -/
theorem cache_roundtrip_idempotent_witness :
    cacheGetOk [] 0 (cacheKey "SOL") = none ∧ 0 ≤ 10 ∧ 10 < 0 + cacheTTL ∧
    ∃ r1 r2 : CallResult,
      getAggregatedData envPT true [] 0 "SOL" = .ok r1 ∧
      r1.dexCalls = 1 ∧ r1.jupCalls = 1 ∧
      getAggregatedData envPT true r1.state 10 "SOL" = .ok r2 ∧
      r2.dexCalls = 0 ∧ r2.jupCalls = 0 ∧
      r2.result = r1.result :=
  ⟨rfl, by decide, by decide,
   cache_roundtrip_idempotent envPT [] "SOL" 0 10 rfl (by decide) (by decide)⟩

/-- C5 counterexample: when the cache read fails, `getAggregatedData`
returns an error — it does not fall back to fetching and never returns a
merged sequence. -/
theorem cache_read_failure_cex :
    getAggregatedData envPT false [] 0 "SOL" = Except.error () ∧
    ∀ r : CallResult, getAggregatedData envPT false [] 0 "SOL" ≠ Except.ok r := by
  refine ⟨rfl, fun r h => ?_⟩
  rw [show getAggregatedData envPT false [] 0 "SOL" = Except.error () from rfl] at h
  exact Except.noConfusion h

/-- C5 (amended): a cache read failure propagates out of
`getAggregatedData` (the awaited rejection aborts the call, surfaced by
the HTTP layer as a 500); it is not degraded to a cache miss. -/
theorem cache_read_failure_propagates (env : Env) (st : CacheState)
    (now : ℕ) (q : String) :
    getAggregatedData env false st now q = Except.error () := rfl

/-- C9 counterexample: the query string is embedded raw in the cache key,
not normalized: `"SOL"` and its lowercased form give different keys. -/
theorem cache_key_not_normalized_cex :
    cacheKey "SOL" = "tokens_v5:SOL" ∧
    lowerStr "SOL" = "sol" ∧
    cacheKey "SOL" ≠ cacheKey (lowerStr "SOL") := by
  decide

/-- C9 (amended): the cache entry is keyed by the fixed versioned prefix
`tokens_v5`, a colon, and the raw (unnormalized) query; on a miss the
entry is written with the default TTL of 30 seconds measured from write
time. -/
theorem cache_key_and_ttl (env : Env) (st : CacheState) (now : ℕ)
    (q : String) (hmiss : cacheGetOk st now (cacheKey q) = none) :
    cacheKey q = "tokens_v5:" ++ q ∧ cacheTTL = 30 ∧
    ∃ r : CallResult, getAggregatedData env true st now q = .ok r ∧
      r.state = ("tokens_v5:" ++ q, encodeTokens r.result, now + 30) :: st := by
  refine ⟨rfl, rfl,
    ⟨mergeTokenData (env.dexFetch q) (env.jupFetch q),
     cacheSet st now cacheTTL (cacheKey q)
       (encodeTokens (mergeTokenData (env.dexFetch q) (env.jupFetch q))),
     1, 1⟩, ?_, rfl⟩
  rw [getAggregatedData, if_pos rfl, hmiss]

/-- Witness for the amended C9 at a concrete miss. -/
theorem cache_key_and_ttl_witness :
    cacheGetOk [] 0 (cacheKey "SOL") = none ∧
    (cacheKey "SOL" = "tokens_v5:" ++ "SOL" ∧ cacheTTL = 30 ∧
     ∃ r : CallResult, getAggregatedData envPT true [] 0 "SOL" = .ok r ∧
       r.state = ("tokens_v5:" ++ "SOL", encodeTokens r.result, 0 + 30) :: []) :=
  ⟨rfl, cache_key_and_ttl envPT [] 0 "SOL" rfl⟩

/-! ## Claims about the source adapters -/

/-- C8: each adapter is a total function into token lists (it cannot
raise), and every failure outcome — transport error or non-success
status (`.error`), missing body, missing `pairs` array, non-array
Jupiter payload — yields the empty sequence. -/
theorem adapters_fail_soft :
    (∀ e : Unit, fetchDexScreenerData (.error e) = []) ∧
    fetchDexScreenerData (.ok none) = [] ∧
    (∀ d : DexData, d.pairs = none → fetchDexScreenerData (.ok (some d)) = []) ∧
    (∀ e : Unit, fetchJupiterData (.error e) = []) ∧
    fetchJupiterData (.ok none) = [] := by
  refine ⟨fun e => rfl, rfl, ?_, fun e => rfl, rfl⟩
  intro d hd
  simp only [fetchDexScreenerData]
  rw [hd]

/-- Witness for C8: a present-but-`pairs`-less DexScreener body maps to
the empty sequence. -/
theorem adapters_fail_soft_witness :
    fetchDexScreenerData (.ok (some ⟨none⟩)) = [] :=
  adapters_fail_soft.2.2.1 ⟨none⟩ rfl

/-- Scenario A from the testable properties, proved concretely: the
duplicate-address record keeps the DexScreener values and the fresh
Jupiter record is appended. -/
theorem merge_scenario_a :
    mergeTokenData [tokenP] [tokenS, tokenT] = [tokenP, tokenT] := by
  decide
